import Mathlib

/-!
Verification of the document loading and metadata extraction subsystem of the
basenana/plugin repository (the docloader package and its utils helpers).

The repository ships only the test files of this subsystem; the implementation
bodies (the per-format parsers, the metadata heuristics, the dispatcher and the
document assembler) are not in the tree. Every operation below is therefore
modelled from the natural-language specification, with the package tests used
to pin down the concrete behaviours they observe. Strings are embedded as
lists of Unicode code points (`List Char`), so rune counting and rune-level
truncation are exact; file, zip and DOM I/O are embedded as explicit input
values handed to the functions that would perform the reads.
-/

namespace DocLoader

/-- Modelled from the spec: the `Properties` metadata record of §3 (the Go
struct `types.DocumentProperties`). All fields default to empty/zero. -/
structure Properties where
  title : List Char := []
  author : List Char := []
  year : List Char := []
  source : List Char := []
  abstract : List Char := []
  notes : List Char := []
  keywords : List (List Char) := []
  url : List Char := []
  headerImage : List Char := []
  unread : Bool := false
  marked : Bool := false
  publishAt : Int := 0
  deriving Repr, DecidableEq

/-- The all-empty metadata record. -/
def emptyProps : Properties := {}

/-- Modelled from the spec: the `Document` output value of §3, extracted plain
text plus the metadata record. -/
structure Document where
  content : List Char
  properties : Properties
  deriving Repr, DecidableEq

/-! ### Character-list helpers

These model the Go standard-library string operations the loader relies on
(`strings.Split`, `strings.TrimSpace`, `filepath.Base`, `filepath.Ext`, …)
at the level of code-point lists. -/

/-- Whitespace test used by trimming (models `unicode.IsSpace` on the
characters that occur in document text). -/
def isWs (c : Char) : Bool :=
  c = ' ' || c = '\t' || c = '\n' || c = '\r'

/-- Trim whitespace from both ends (models `strings.TrimSpace`). -/
def trimCs (l : List Char) : List Char :=
  ((l.dropWhile isWs).reverse.dropWhile isWs).reverse

/-- Split on a separator character (models `strings.Split` with a one-char
separator); always returns a non-empty list of fields. -/
def splitOnCharCs (c : Char) (l : List Char) : List (List Char) :=
  l.splitOn c

/-- Split at the first occurrence of a separator substring, returning the
text before and after it (models `strings.SplitN(s, sep, 2)` when the
separator occurs). -/
def splitFirstSub (sep : List Char) : List Char → Option (List Char × List Char)
  | [] => none
  | x :: xs =>
    if sep.isPrefixOf (x :: xs) then some ([], (x :: xs).drop sep.length)
    else
      match splitFirstSub sep xs with
      | some (a, b) => some (x :: a, b)
      | none => none

/-- Substring occurrence test (models `strings.Contains`). -/
def occursSub (sep l : List Char) : Bool :=
  (splitFirstSub sep l).isSome

/-- The base filename: everything after the last path separator (models
`filepath.Base` on a non-empty relative path). -/
def baseNameCs (path : List Char) : List Char :=
  (path.reverse.takeWhile (fun c => c ≠ '/')).reverse

/-- The filename without its extension: everything before the last dot, or
the whole name when it has no dot. -/
def stripExtCs (name : List Char) : List Char :=
  let r := name.reverse.dropWhile (fun c => c ≠ '.')
  match r with
  | [] => name
  | _ :: tl => tl.reverse

/-- The filename extension from the last dot on, lower-cased (models
`strings.ToLower (filepath.Ext path)`); empty when the base name has no dot. -/
def extLowerCs (path : List Char) : List Char :=
  let base := baseNameCs path
  let r := base.reverse.takeWhile (fun c => c ≠ '.')
  if r.length = base.length then []
  else '.' :: (r.reverse.map Char.toLower)

/-- The stem of a path: base filename without its extension. -/
def stemOf (path : List Char) : List Char :=
  stripExtCs (baseNameCs path)

/-! ### Filename metadata heuristic (spec §4.2) -/

/-- Four-digit-year test used by the filename patterns. -/
def isYear4 (l : List Char) : Bool :=
  l.length = 4 && l.all Char.isDigit

/-- The separator of the `Author - Title (Year)` pattern: space, dash,
space. -/
def dashSep : List Char := [' ', '-', ' ']

/-- If the stem ends in a parenthesised four-digit year preceded by a space
(`… (YYYY)`), return the text in front and the year. -/
def parenYearSplit (stem : List Char) : Option (List Char × List Char) :=
  match stem.reverse with
  | ')' :: r =>
    let y := (r.take 4).reverse
    if isYear4 y then
      match r.drop 4 with
      | '(' :: ' ' :: fr => some (fr.reverse, y)
      | _ => none
    else none
  | _ => none

/-- Modelled from the spec: the Filename Metadata Heuristic of §4.2 (the
missing `docloader` function `extractFileNameMetadata`). It recognises, in
priority order, `Author_Title_Year`, `Author - Title (Year)`,
`Author_Title (Year)`, and the generic trailing-four-digit-year underscore
pattern; on no match every field stays empty. -/
def extractFileNameMetadata (path : List Char) : Properties :=
  let stem := stemOf path
  match parenYearSplit stem with
  | some (front, y) =>
    match splitFirstSub dashSep front with
    | some (a, t) => { emptyProps with author := a, title := t, year := y }
    | none =>
      match splitFirstSub ['_'] front with
      | some (a, t) => { emptyProps with author := a, title := t, year := y }
      | none => emptyProps
  | none =>
    match (splitOnCharCs '_' stem).reverse with
    | y :: t :: a :: _ =>
      if isYear4 y then { emptyProps with author := a, title := t, year := y }
      else emptyProps
    | _ => emptyProps

/-! ### Content metadata heuristic (spec §4.3) -/

/-- Minimal trimmed length for a whitespace-free line to qualify as a title
candidate; the spec fixes no exact number, only that short tokens such as
`abc` and `12345` are skipped, so any bound above five matches the tests. -/
def minTitleLen : Nat := 10

/-- A Markdown H1 line: starts with a hash and a space. -/
def isH1 (l : List Char) : Bool :=
  ['#', ' '].isPrefixOf l

/-- A line qualifying as a fallback title: non-empty after trimming and
either long or containing inner whitespace. -/
def titleCandidate (l : List Char) : Bool :=
  let t := trimCs l
  !t.isEmpty && (decide (minTitleLen ≤ t.length) || t.any isWs)

/-- Title selection over the lines of the content: the first H1 line
stripped of its marker, else the first candidate line, else empty. -/
def findTitle (lines : List (List Char)) : List Char :=
  match lines.find? isH1 with
  | some l => trimCs (l.drop 2)
  | none =>
    match lines.find? titleCandidate with
    | some l => trimCs l
    | none => []

/-- Blank-line test (a separator between paragraphs). -/
def isBlankLine (l : List Char) : Bool :=
  (trimCs l).isEmpty

/-- Group lines into paragraphs: maximal runs of non-blank lines. -/
def paragraphsOf (lines : List (List Char)) : List (List (List Char)) :=
  (lines.splitOnP (fun l => isBlankLine l)).filter (fun g => !g.isEmpty)

/-- A paragraph whose first line is a Markdown header (starts with a hash). -/
def isHeaderPara (g : List (List Char)) : Bool :=
  match g with
  | [] => false
  | l :: _ => l.headD ' ' = '#'

/-- Abstract selection: the first paragraph that is not a Markdown header
paragraph, its lines rejoined with newlines. -/
def findAbstract (lines : List (List Char)) : List Char :=
  match (paragraphsOf lines).find? (fun g => !isHeaderPara g) with
  | some g => trimCs (List.intercalate ['\n'] g)
  | none => []

/-- Modelled from the spec: the Content Metadata Heuristic of §4.3 (the
missing `docloader` function `extractTextContentMetadata`). Fills `title`
and `abstract` only when they are currently empty. -/
def extractTextContentMetadata (content : List Char) (props : Properties) : Properties :=
  let lines := splitOnCharCs '\n' content
  let p1 :=
    if props.title.isEmpty then { props with title := findTitle lines } else props
  if p1.abstract.isEmpty then { p1 with abstract := findAbstract lines } else p1

/-! ### HTML metadata extractor (spec §4.4)

The DOM parse itself is performed by an external library (goquery); its
result on the document head is embedded as an explicit `HtmlHead` value:
the text of the `title` tag and the `meta` tags in document order. -/

/-- One `meta` tag of the head: its `name` attribute, `property` attribute
and `content` attribute (absent attributes are empty). -/
structure MetaTag where
  name : List Char := []
  property : List Char := []
  content : List Char := []
  deriving Repr, DecidableEq

/-- The parsed head of an HTML document. -/
structure HtmlHead where
  titleTag : List Char := []
  metas : List MetaTag := []
  deriving Repr, DecidableEq

/-- The content of the first meta tag with the given `name` attribute. -/
def metaNamed (metas : List MetaTag) (n : List Char) : Option (List Char) :=
  (metas.find? (fun m => m.name = n)).map (fun m => m.content)

/-- The content of the first meta tag with the given `property` attribute. -/
def metaProp (metas : List MetaTag) (p : List Char) : Option (List Char) :=
  (metas.find? (fun m => m.property = p)).map (fun m => m.content)

/-- Fill a field only when it is currently empty. -/
def fillEmpty (cur : List Char) (v : Option (List Char)) : List Char :=
  if cur.isEmpty then v.getD [] else cur

/-- Override a field whenever the new value is present and non-empty. -/
def overrideWith (cur : List Char) (v : Option (List Char)) : List Char :=
  match v with
  | some w => if w.isEmpty then cur else w
  | none => cur

/-- Split a comma-separated keyword list into trimmed, non-empty entries. -/
def splitKeywords (l : List Char) : List (List Char) :=
  ((splitOnCharCs ',' l).map trimCs).filter (fun k => !k.isEmpty)

/-- Meta attribute names used by the extractor. -/
def nAuthor : List Char := "author".data

def nDescription : List Char := "description".data

def nKeywords : List Char := "keywords".data

def nDcCreator : List Char := "dc.creator".data

def nDcDescription : List Char := "dc.description".data

def nDcSubject : List Char := "dc.subject".data

def nDcPublisher : List Char := "dc.publisher".data

def pOgTitle : List Char := "og:title".data

def pOgDescription : List Char := "og:description".data

def pOgImage : List Char := "og:image".data

def pOgSiteName : List Char := "og:site_name".data

/-- Modelled from the spec: the HTML Metadata Extractor of §4.4 (the missing
`docloader` function `extractHTMLMetadata`), applied to the parsed head.
Sources merge in the spec order: the `title` tag, then standard metas, then
Dublin Core metas filling still-empty fields, then Open Graph metas
overriding whenever their value is present and non-empty. -/
def extractHTMLMetadata (h : HtmlHead) : Properties :=
  let ms := h.metas
  let p1 : Properties :=
    { emptyProps with
      title := trimCs h.titleTag
      author := trimCs ((metaNamed ms nAuthor).getD [])
      abstract := trimCs ((metaNamed ms nDescription).getD [])
      keywords := splitKeywords ((metaNamed ms nKeywords).getD []) }
  let p2 : Properties :=
    { p1 with
      author := fillEmpty p1.author ((metaNamed ms nDcCreator).map trimCs)
      abstract := fillEmpty p1.abstract ((metaNamed ms nDcDescription).map trimCs)
      keywords :=
        if p1.keywords.isEmpty then splitKeywords ((metaNamed ms nDcSubject).getD [])
        else p1.keywords
      source := fillEmpty p1.source ((metaNamed ms nDcPublisher).map trimCs) }
  { p2 with
    title := overrideWith p2.title (metaProp ms pOgTitle)
    abstract := overrideWith p2.abstract (metaProp ms pOgDescription)
    headerImage := overrideWith p2.headerImage (metaProp ms pOgImage)
    source := overrideWith p2.source (metaProp ms pOgSiteName) }

/-! ### PDF parser (spec §4.5) -/

/-- Decimal value of a digit list (models `strconv.Atoi` on digit runs). -/
def digitsToNat (l : List Char) : Nat :=
  l.foldl (fun acc c => acc * 10 + (c.toNat - '0'.toNat)) 0

/-- Days from the civil epoch 1970-01-01 for a proleptic Gregorian date
(the standard days-from-civil computation Go's `time.Date` agrees with). -/
def daysFromCivil (y : Int) (m d : Int) : Int :=
  let y2 : Int := if m ≤ 2 then y - 1 else y
  let era : Int := (if 0 ≤ y2 then y2 else y2 - 399) / 400
  let yoe : Int := y2 - era * 400
  let mp : Int := (m + 9) % 12
  let doy : Int := (153 * mp + 2) / 5 + d - 1
  let doe : Int := yoe * 365 + yoe / 4 - yoe / 100 + doy
  era * 146097 + doe - 719468

/-- UTC Unix timestamp of a civil date and time. -/
def unixTimestamp (y m d hh mm ss : Int) : Int :=
  daysFromCivil y m d * 86400 + hh * 3600 + mm * 60 + ss

/-- Whether the characters after the `D:` prefix carry a positional
`YYYYMMDD` date (at least eight digits). -/
def pdfDigitsOk (r : List Char) : Bool :=
  decide (8 ≤ r.length) && (r.take 8).all Char.isDigit

/-- Modelled from the spec: the missing `docloader` function `parsePDFDate`.
Strings of the form `D:YYYYMMDD`, optionally followed by `HHMMSS`, parse
positionally into a Unix timestamp; the empty string and any string not in
that format yield zero, never an error. -/
def parsePDFDate (s : List Char) : Int :=
  if s.take 2 = ['D', ':'] then
    let r := s.drop 2
    if pdfDigitsOk r then
      let y : Int := digitsToNat (r.take 4)
      let m : Int := digitsToNat ((r.drop 4).take 2)
      let d : Int := digitsToNat ((r.drop 6).take 2)
      if decide (14 ≤ r.length) && ((r.take 14).all Char.isDigit) then
        let hh : Int := digitsToNat ((r.drop 8).take 2)
        let mm : Int := digitsToNat ((r.drop 10).take 2)
        let ss : Int := digitsToNat ((r.drop 12).take 2)
        unixTimestamp y m d hh mm ss
      else
        unixTimestamp y m d 0 0 0
    else 0
  else 0

/-- The document-information dictionary of a PDF as surfaced by the external
PDF library: title, author and creation date strings. -/
structure PdfInfo where
  title : List Char := []
  author : List Char := []
  creationDate : List Char := []
  deriving Repr, DecidableEq

/-- The external PDF reader handle: it may or may not carry an information
dictionary. A `none` reader models the nil/unavailable reader. -/
structure PdfReader where
  info : Option PdfInfo := none
  deriving Repr, DecidableEq

/-- Modelled from the spec: the missing `docloader` function
`extractPDFMetadata`. A nil/unavailable reader degrades safely to the
all-empty record (the function is total: it cannot panic and returns no
error); a present info dictionary fills title, author and publish time. -/
def extractPDFMetadata (r : Option PdfReader) : Properties :=
  match r with
  | none => emptyProps
  | some rd =>
    match rd.info with
    | none => emptyProps
    | some i =>
      { emptyProps with
        title := trimCs i.title
        author := trimCs i.author
        publishAt := parsePDFDate i.creationDate }

/-! ### EPUB parser (spec §4.6)

The zip layer is an external library: its result is embedded as
`Option (List ZipEntry)`, where `none` models bytes that are not a valid
zip archive and a `some` value lists the archive entries (name and text). -/

/-- One entry of an EPUB zip archive. -/
structure ZipEntry where
  name : List Char
  text : List Char
  deriving Repr, DecidableEq

/-- Look up an archive entry by exact name. -/
def findEntry (entries : List ZipEntry) (n : List Char) : Option (List Char) :=
  (entries.find? (fun e => e.name = n)).map (fun e => e.text)

/-- The fixed location of the EPUB container document. -/
def containerName : List Char := "META-INF/container.xml".data

/-- The attribute marker locating the OPF package document. -/
def fullPathAttr : List Char := "full-path=\"".data

/-- Error text for bytes that are not a valid zip archive. -/
def errNotZip : List Char := "epub: not a valid zip archive".data

/-- Error text for a missing or malformed container document. -/
def errNoContainer : List Char := "epub: missing or malformed META-INF/container.xml".data

/-- Error text for a missing OPF package document. -/
def errNoOpf : List Char := "epub: missing or malformed OPF package document".data

/-- The OPF path named by the container document: the text of its
`full-path` attribute; `none` when the attribute is absent (a malformed
container). -/
def containerOpfPath (container : List Char) : Option (List Char) :=
  match splitFirstSub fullPathAttr container with
  | some (_, rest) =>
    let p := rest.takeWhile (fun c => c ≠ '"')
    if p.isEmpty then none else some p
  | none => none

/-- The trimmed text of the first `<tag>…</tag>` element of an XML
document; attribute-carrying open tags are not modelled. -/
def extractTagText (tag : List Char) (doc : List Char) : Option (List Char) :=
  match splitFirstSub ('<' :: tag ++ ['>']) doc with
  | some (_, rest) => some (trimCs (rest.takeWhile (fun c => c ≠ '<')))
  | none => none

/-- The opening of the OPF root element. -/
def opfOpenTag : List Char := "<package".data

/-- The closing tag of the OPF root element. -/
def opfCloseTag : List Char := "</package>".data

/-- Modelled from the spec: well-formedness of the OPF package document as
the XML decoder observes it when parsing the package (§4.6 step b) — the
root `<package>` element must open and close. Text without a root element,
or with an unterminated one, fails to unmarshal and is a malformed OPF. -/
def opfWellFormed (opf : List Char) : Bool :=
  occursSub opfOpenTag opf && occursSub opfCloseTag opf

/-- Dublin Core tag names of the OPF metadata block. -/
def tDcTitle : List Char := "dc:title".data

def tDcCreator : List Char := "dc:creator".data

def tDcDescription : List Char := "dc:description".data

def tDcSubject : List Char := "dc:subject".data

def tDcPublisher : List Char := "dc:publisher".data

def tDcDate : List Char := "dc:date".data

/-- Suffix test on character lists (models `strings.HasSuffix`). -/
def endsWithCs (suf l : List Char) : Bool :=
  suf.reverse.isPrefixOf l.reverse

/-- Chapter-document name test: the XHTML extensions an EPUB spine refers
to. Spine order is approximated by archive order. -/
def isChapterName (n : List Char) : Bool :=
  endsWithCs ".xhtml".data n || endsWithCs ".html".data n

/-- Dropping a prefix by predicate never lengthens a list. -/
theorem lengthDropWhileLe (p : Char → Bool) (l : List Char) :
    (l.dropWhile p).length ≤ l.length := by
  induction l with
  | nil => simp [List.dropWhile]
  | cons x xs ih =>
    by_cases h : p x
    · simp only [List.dropWhile, h]
      exact ih.trans (Nat.le_succ _)
    · simp [List.dropWhile, h]

/-- Strip XML/HTML markup from chapter text: drop every `<…>` run. Markup
stripping inside the EPUB parser keeps only text outside angle brackets. -/
def stripMarkup : List Char → List Char
  | [] => []
  | '<' :: rest => stripMarkup ((rest.dropWhile (fun c => c ≠ '>')).drop 1)
  | c :: rest => c :: stripMarkup rest
termination_by l => l.length
decreasing_by
  · have h1 : (rest.dropWhile (fun c => decide (c ≠ '>'))).length ≤ rest.length :=
      lengthDropWhileLe _ rest
    have h2 := List.length_drop 1 (rest.dropWhile (fun c => decide (c ≠ '>')))
    simp only [List.length_cons]
    omega
  · simp [List.length_cons]

/-- Modelled from the spec: the EPUB parser of §4.6 (the missing
`docloader` type `EPUB` and its `Load`). Structural corruption is a hard
failure: an invalid zip, a missing or malformed container, and a missing
or malformed OPF each return a descriptive error and no document. On
success the OPF
Dublin Core block fills the metadata, with the filename (without
extension) as title when the OPF carries none, and the concatenated,
markup-stripped chapter texts form the content. -/
def epubLoad (path : List Char) (zipResult : Option (List ZipEntry)) :
    Except (List Char) (List Char × Properties) :=
  match zipResult with
  | none => .error errNotZip
  | some entries =>
    match findEntry entries containerName with
    | none => .error errNoContainer
    | some container =>
      match containerOpfPath container with
      | none => .error errNoContainer
      | some opfPath =>
        match findEntry entries opfPath with
        | none => .error errNoOpf
        | some opf =>
          if !opfWellFormed opf then .error errNoOpf else
          let title := (extractTagText tDcTitle opf).getD []
          let props : Properties :=
            { emptyProps with
              title := if title.isEmpty then stemOf path else title
              author := (extractTagText tDcCreator opf).getD []
              abstract := (extractTagText tDcDescription opf).getD []
              keywords := splitKeywords ((extractTagText tDcSubject opf).getD [])
              source := (extractTagText tDcPublisher opf).getD []
              year := ((extractTagText tDcDate opf).getD []).take 4 }
          let chapters := entries.filter (fun e => isChapterName e.name)
          let content := trimCs (chapters.flatMap (fun e => stripMarkup e.text))
          .ok (content, props)

/-! ### Clutter-free text extraction and abstract generation (utils package,
spec §4.4 body-content rules) -/

/-- Non-content element names whose entire content is stripped before
collecting visible text. -/
def tScript : List Char := "script".data

def tStyle : List Char := "style".data

def tNav : List Char := "nav".data

def tHeaderTag : List Char := "header".data

def tFooter : List Char := "footer".data

def tAside : List Char := "aside".data

def tNoscript : List Char := "noscript".data

def tBr : List Char := "br".data

/-- The element names stripped together with their content. -/
def blockTags : List (List Char) :=
  [tScript, tStyle, tNav, tHeaderTag, tFooter, tAside, tNoscript]

/-- The tag name at the start of a tag body: characters up to the first
closing bracket, space or slash, lower-cased. -/
def tagNameOf (rest : List Char) : List Char :=
  (rest.takeWhile (fun c => !(c = '>' || c = ' ' || c = '/'))).map Char.toLower

/-- Drop everything up to and through the first occurrence of a separator
substring; the whole list when it never occurs. -/
def dropThroughSub (sep : List Char) : List Char → List Char
  | [] => []
  | x :: xs =>
    if sep.isPrefixOf (x :: xs) then (x :: xs).drop sep.length
    else dropThroughSub sep xs

/-- Skipping through a separator never lengthens a list. -/
theorem lengthDropThroughLe (sep l : List Char) :
    (dropThroughSub sep l).length ≤ l.length := by
  induction l with
  | nil => simp [dropThroughSub]
  | cons x xs ih =>
    by_cases h : sep.isPrefixOf (x :: xs)
    · simp only [dropThroughSub, h, if_pos]
      have := List.length_drop sep.length (x :: xs)
      omega
    · simp only [dropThroughSub, h, if_neg, Bool.false_eq_true, not_false_iff]
      exact ih.trans (Nat.le_succ _)

/-- Modelled from the spec: the utils-package HTML text stripper backing
`GenerateContentAbstract` (and the docloader `stripHTMLTags` the tests
exercise). Non-content elements (`script`, `style`, `nav`, `header`,
`footer`, `aside`, `noscript`) are dropped with their content, `br` tags
become newlines, every other tag is removed, text is kept. The
element-priority refinement (preferring `article`/`section` text) lives in
the paragraph-level quick path modelled separately below. -/
def stripHTMLTags : List Char → List Char
  | [] => []
  | '<' :: rest =>
    let tag := tagNameOf rest
    if tag ∈ blockTags then
      stripHTMLTags (dropThroughSub ('<' :: '/' :: (tag ++ ['>'])) rest)
    else
      (if tag = tBr then ['\n'] else []) ++
        stripHTMLTags ((rest.dropWhile (fun c => c ≠ '>')).drop 1)
  | c :: rest => c :: stripHTMLTags rest
termination_by l => l.length
decreasing_by
  · have h1 := lengthDropThroughLe ('<' :: '/' :: (tagNameOf rest ++ ['>'])) rest
    simp only [List.length_cons]
    omega
  · have h1 : (rest.dropWhile (fun c => decide (c ≠ '>'))).length ≤ rest.length :=
      lengthDropWhileLe _ rest
    have h2 := List.length_drop 1 (rest.dropWhile (fun c => decide (c ≠ '>')))
    simp only [List.length_cons]
    omega
  · simp [List.length_cons]

/-- The fixed character budget of the abstract, measured in Unicode code
points. -/
def abstractBudget : Nat := 400

/-- Modelled from the spec: the missing utils function
`GenerateContentAbstract`. Visible text is collected with the stripper
above and hard-truncated at the 400-code-point budget; because the
embedding works on code-point lists, truncation can never split a
multi-byte encoding of a single rune. -/
def GenerateContentAbstract (input : List Char) : List Char :=
  (trimCs (stripHTMLTags input)).take abstractBudget

/-- The paragraph cap of the quick-path extraction. -/
def quickPathParaLimit : Nat := 11

/-- Modelled from the spec: the missing utils function
`quickPathContentSubContent`, applied to the `<p>` element texts the
external DOM query returns in document order. Only the first eleven
paragraph texts contribute; they are trimmed and joined with spaces. -/
def quickPathContentSubContent (paragraphs : List (List Char)) : List Char :=
  trimCs (List.intercalate [' '] ((paragraphs.take quickPathParaLimit).map trimCs))

/-! ### Format dispatcher and document assembler (spec §4.1, §4.8) -/

/-- The per-format parser variants the dispatcher selects among. -/
inductive DocFormat
  | text
  | html
  | pdf
  | epub
  | csv
  deriving Repr, DecidableEq

/-- Supported extensions, lower-case with the leading dot. -/
def ePdf : List Char := ".pdf".data

def eTxt : List Char := ".txt".data

def eMd : List Char := ".md".data

def eMarkdown : List Char := ".markdown".data

def eHtml : List Char := ".html".data

def eHtm : List Char := ".htm".data

def eWebarchive : List Char := ".webarchive".data

def eEpub : List Char := ".epub".data

def eCsv : List Char := ".csv".data

/-- The supported extension set of §6. -/
def supportedExts : List (List Char) :=
  [ePdf, eTxt, eMd, eMarkdown, eHtml, eHtm, eWebarchive, eEpub, eCsv]

/-- Modelled from the spec: the Format Dispatcher of §4.1. Routes a
lower-cased extension to exactly one parser variant; unknown extensions
select nothing. -/
def selectParser (ext : List Char) : Option DocFormat :=
  if ext = eTxt || ext = eMd || ext = eMarkdown then some .text
  else if ext = eHtml || ext = eHtm || ext = eWebarchive then some .html
  else if ext = ePdf then some .pdf
  else if ext = eEpub then some .epub
  else if ext = eCsv then some .csv
  else none

/-- The file as seen through each external reading library: its bytes as
text, its DOM head, its zip directory (`none` when not a valid zip), and
its PDF reader (`none` when unavailable). -/
structure FileData where
  text : List Char := []
  head : HtmlHead := {}
  zip : Option (List ZipEntry) := none
  pdf : Option PdfReader := none

/-- The column separator of the human-readable CSV rendering. -/
def csvColSep : List Char := [' ', '|', ' ']

/-- Modelled from the spec: the CSV content synthesis of §4.7, a
human-readable rendering of rows and columns. -/
def csvRender (content : List Char) : List Char :=
  List.intercalate ['\n']
    ((splitOnCharCs '\n' content).map
      (fun row => List.intercalate csvColSep (splitOnCharCs ',' row)))

/-- Modelled from the spec: the per-format parsers of §4.5–§4.7 as routed
by the dispatcher, each returning extracted content and format-native
metadata, or an error. -/
def runParser : DocFormat → List Char → FileData → Except (List Char) (List Char × Properties)
  | .text, _, fd => .ok (fd.text, extractTextContentMetadata fd.text emptyProps)
  | .html, _, fd => .ok (trimCs (stripHTMLTags fd.text), extractHTMLMetadata fd.head)
  | .pdf, _, fd => .ok (fd.text, extractPDFMetadata fd.pdf)
  | .epub, path, fd => epubLoad path fd.zip
  | .csv, _, fd => .ok (csvRender fd.text, emptyProps)

/-- Modelled from the spec: the Document Assembler of §4.8. Fills
still-empty author, title and year from the filename heuristic, then
substitutes the filename without extension when the title is still empty,
and wraps the result as the final document. -/
def assembleDocument (path content : List Char) (props : Properties) : Document :=
  let fn := extractFileNameMetadata path
  let p1 : Properties :=
    { props with
      author := if props.author.isEmpty then fn.author else props.author
      title := if props.title.isEmpty then fn.title else props.title
      year := if props.year.isEmpty then fn.year else props.year }
  { content := content
    properties :=
      { p1 with title := if p1.title.isEmpty then stemOf path else p1.title } }

/-- Error prefix for a rejected extension. -/
def errUnsupported : List Char := "unsupported file format: ".data

/-- Modelled from the spec: the full load operation — dispatcher, parser
and assembler in sequence (`DocLoader.loadDocument`). -/
def loadDocument (path : List Char) (fd : FileData) : Except (List Char) Document :=
  let ext := extLowerCs path
  match selectParser ext with
  | none => .error (errUnsupported ++ ext)
  | some fmt =>
    (runParser fmt path fd).map (fun r => assembleDocument path r.1 r.2)

/-! ### Helper lemmas on the character-list operations -/

theorem splitOnCharCs_intercalate (c : Char) (toks : List (List Char))
    (hne : toks ≠ []) (hfree : ∀ t ∈ toks, c ∉ t) :
    splitOnCharCs c (List.intercalate [c] toks) = toks := by
  simpa [splitOnCharCs, List.intercalate] using List.splitOn_intercalate toks c hfree hne

/-! ### Concrete inputs of the package tests, used by witnesses -/

/-- The full PDF date string of `TestParsePDFDate`. -/
def pdfDateFull : List Char := "D:20240115123045".data

/-- The date-only PDF date string of `TestParsePDFDate`. -/
def pdfDateShort : List Char := "D:20240115".data

/-- The non-PDF date format of `TestParsePDFDate`. -/
def pdfDateBad : List Char := "2024-01-15".data

/-- The unsupported-extension path of `TestDocLoader_Run_UnsupportedFormat`. -/
def exXyzPath : List Char := "test.xyz".data

/-- The content written to that file by the test. -/
def exXyzContent : List Char := "test content".data

/-- The `<title>` text of `TestHTML_ExtractMetadata_OGTags`. -/
def exPageTitle : List Char := "Page Title".data

/-- The `og:title` value of that test. -/
def exOgTitleVal : List Char := "OG Title".data

/-- The `og:description` value of that test. -/
def exOgDescVal : List Char := "OG Description".data

/-- The `og:image` value of that test. -/
def exOgImageVal : List Char := "https://example.com/image.jpg".data

/-- The `og:site_name` value of that test. -/
def exOgSiteVal : List Char := "Example Site".data

/-- The invalid EPUB path of `TestEPUB_Load_InvalidFile`. -/
def exInvalidEpubPath : List Char := "invalid.epub".data

/-- A well-formed container document naming an OPF location. -/
def exContainerXml : List Char :=
  "<container><rootfiles><rootfile full-path=\"content.opf\"/></rootfiles></container>".data

/-- The OPF location that container names. -/
def exOpfPath : List Char := "content.opf".data

/-- Bytes at the OPF location that are not a parsable package document. -/
def exGarbageOpf : List Char := "garbage, not XML at all".data

/-- An archive whose container is fine but whose OPF entry is malformed. -/
def exBadOpfEntries : List ZipEntry :=
  [ { name := containerName, text := exContainerXml }
  , { name := exOpfPath, text := exGarbageOpf } ]

/-- The path of `TestDocLoader_Run_DefaultTitle`. -/
def exDefaultTitlePath : List Char := "my_custom_file.txt".data

/-- The title-free content of that test. -/
def exShortContent : List Char := "12345".data

/-- The expected fallback title: the filename without its extension. -/
def exDefaultTitleStem : List Char := "my_custom_file".data

/-- The file-data view of that test file. -/
def exDefaultFd : FileData := { text := exShortContent }

/-- The document the loader assembles for that test file. -/
def exDefaultDoc : Document :=
  assembleDocument exDefaultTitlePath exShortContent
    (extractTextContentMetadata exShortContent emptyProps)

/-- The H1 line of the content-heuristic tests. -/
def exH1Line : List Char := "# My Document Title".data

/-- A body line of those tests. -/
def exBodyLine : List Char := "Some content here.".data

/-- The H1 test content as lines. -/
def exH1Lines : List (List Char) := [exH1Line, [], exBodyLine]

/-- The short whitespace-free token the heuristic must skip. -/
def exShortLine : List Char := "abc".data

/-- The qualifying paragraph line of the skip test. -/
def exParaLine : List Char := "Some paragraph here.".data

/-- The skip-test content as lines. -/
def exShortLines : List (List Char) := [exShortLine, [], exParaLine]

/-- The `.txt` path of the end-to-end H1 title example. -/
def exH1TxtPath : List Char := "test.txt".data

/-- Its content: a Markdown H1 first line, then a paragraph. -/
def exH1Content : List Char := "# Title\n\nBody paragraph.".data

/-- Its file-data view. -/
def exH1Fd : FileData := { text := exH1Content }

/-- The expected extracted title. -/
def exH1Title : List Char := "Title".data

/-- The author token of the `Author_Title_Year` filename test. -/
def exFnAuthor1 : List Char := "ResearchTeam".data

/-- The title token of that test. -/
def exFnTitle1 : List Char := "StudyResults".data

/-- The year token of that test. -/
def exFnYear1 : List Char := "2023".data

/-- The `.txt` extension without its dot. -/
def exExtTxt : List Char := "txt".data

/-- The author of the `Author - Title (Year)` filename test. -/
def exFnAuthor2 : List Char := "JaneSmith".data

/-- The spaced title of that test. -/
def exFnTitle2 : List Char := "Research Paper".data

/-- The year of that test. -/
def exFnYear2 : List Char := "2024".data

/-- The `.md` extension without its dot. -/
def exExtMd : List Char := "md".data

/-- The author of the `Author_Title (Year)` filename test. -/
def exFnAuthor3 : List Char := "Author".data

/-- The title of that test. -/
def exFnTitle3 : List Char := "Title".data

/-- The no-pattern filename of the tests. -/
def exNoMatchPath : List Char := "data_export.txt".data

/-- The parsed head of `TestHTML_ExtractMetadata_OGTags`: a `<title>` tag
and the four Open Graph metas. -/
def exOgHead : HtmlHead :=
  { titleTag := exPageTitle
    metas :=
      [ { property := pOgTitle, content := exOgTitleVal }
      , { property := pOgDescription, content := exOgDescVal }
      , { property := pOgImage, content := exOgImageVal }
      , { property := pOgSiteName, content := exOgSiteVal } ] }

/-! ### Claim C7 -/

/-- C7: for every input string, `GenerateContentAbstract` returns at most
400 Unicode code points; since the embedding truncates a code-point list,
the cut can never fall inside the multi-byte encoding of one rune. -/
theorem generateContentAbstract_budget (input : List Char) :
    (GenerateContentAbstract input).length ≤ 400 := by
  simp only [GenerateContentAbstract, abstractBudget, List.length_take]
  omega

/-! ### Claim C9 -/

/-- C9: the PDF metadata extractor on a nil/unavailable reader returns the
all-empty metadata record; being a total function of the embedding, it can
neither panic nor return an error. -/
theorem extractPDFMetadata_nil : extractPDFMetadata none = emptyProps := rfl

/-! ### Claim C10 -/

/-- C10: the quick-path content extraction draws from at most the first 11
paragraph texts: its result is determined by them alone, so the text of
paragraph 12 and beyond never appears in it. -/
theorem quickPath_first_eleven (ps qs : List (List Char))
    (h : ps.take 11 = qs.take 11) :
    quickPathContentSubContent ps = quickPathContentSubContent qs := by
  have hp : ps.take quickPathParaLimit = qs.take quickPathParaLimit := h
  simp [quickPathContentSubContent, hp]

/-- Witness for C10 at concrete inputs: fifteen paragraphs versus their
first eleven produce the same quick-path text. -/
theorem quickPath_first_eleven_witness :
    quickPathContentSubContent (List.replicate 15 ['a']) =
      quickPathContentSubContent (List.replicate 11 ['a'] ++ List.replicate 4 ['b']) :=
  quickPath_first_eleven _ _ (by decide)

/-! ### Claim C6 -/

/-- C6: `parsePDFDate` parses `D:YYYYMMDD`, optionally followed by
`HHMMSS`, into a non-zero Unix timestamp on the test inputs, and yields
exactly zero, not an error, on the empty string and on every string
outside that format. -/
theorem parsePDFDate_spec :
    parsePDFDate pdfDateFull ≠ 0 ∧
      parsePDFDate pdfDateShort ≠ 0 ∧
      parsePDFDate [] = 0 ∧
      parsePDFDate pdfDateBad = 0 ∧
      (∀ s : List Char,
        ¬(s.take 2 = ['D', ':'] ∧ pdfDigitsOk (s.drop 2) = true) →
          parsePDFDate s = 0) := by
  refine ⟨by decide, by decide, rfl, by decide, ?_⟩
  intro s h
  by_cases h1 : s.take 2 = ['D', ':']
  · by_cases h2 : pdfDigitsOk (s.drop 2) = true
    · exact absurd ⟨h1, h2⟩ h
    · simp [parsePDFDate, h1, h2]
  · simp [parsePDFDate, h1]

/-- Witness for C6: the universal zero clause applied to the concrete
non-PDF format string of the tests. -/
theorem parsePDFDate_spec_witness : parsePDFDate pdfDateBad = 0 :=
  parsePDFDate_spec.2.2.2.2 pdfDateBad (by decide)

/-! ### Claim C2 -/

/-- An unsupported extension selects no parser. -/
theorem selectParser_eq_none {ext : List Char} (h : ext ∉ supportedExts) :
    selectParser ext = none := by
  unfold selectParser
  have hmem : ∀ x, ext = x → x ∈ supportedExts → False := fun x he hx => h (he ▸ hx)
  split
  · rename_i hc
    rcases Bool.or_eq_true_iff.mp hc with hc | hc
    · rcases Bool.or_eq_true_iff.mp hc with hc | hc
      · exact absurd (hmem _ (by simpa using hc) (by simp [supportedExts])) not_false
      · exact absurd (hmem _ (by simpa using hc) (by simp [supportedExts])) not_false
    · exact absurd (hmem _ (by simpa using hc) (by simp [supportedExts])) not_false
  split
  · rename_i hc
    rcases Bool.or_eq_true_iff.mp hc with hc | hc
    · rcases Bool.or_eq_true_iff.mp hc with hc | hc
      · exact absurd (hmem _ (by simpa using hc) (by simp [supportedExts])) not_false
      · exact absurd (hmem _ (by simpa using hc) (by simp [supportedExts])) not_false
    · exact absurd (hmem _ (by simpa using hc) (by simp [supportedExts])) not_false
  split
  · rename_i hc
    exact absurd (hmem _ (by simpa using hc) (by simp [supportedExts])) not_false
  split
  · rename_i hc
    exact absurd (hmem _ (by simpa using hc) (by simp [supportedExts])) not_false
  split
  · rename_i hc
    exact absurd (hmem _ (by simpa using hc) (by simp [supportedExts])) not_false
  rfl

/-- C2: for every file path whose lower-cased extension is outside the
supported set, and for every file content, loading fails with the
"unsupported file format" error naming the extension; no document is
produced. -/
theorem loadDocument_unsupported (path : List Char) (fd : FileData)
    (h : extLowerCs path ∉ supportedExts) :
    loadDocument path fd = .error (errUnsupported ++ extLowerCs path) := by
  simp [loadDocument, selectParser_eq_none h]

/-- Witness for C2: the `.xyz` file of the tests is rejected whatever its
content. -/
theorem loadDocument_unsupported_witness :
    loadDocument exXyzPath { text := exXyzContent } =
      .error (errUnsupported ++ extLowerCs exXyzPath) :=
  loadDocument_unsupported _ _ (by decide)

/-! ### Claim C4 -/

/-- Overriding with a present non-empty value yields that value. -/
theorem overrideWith_some {c v : List Char} (hv : v ≠ []) :
    overrideWith c (some v) = v := by
  simp [overrideWith, hv]

/-- C4: when the head carries a non-empty `og:title` meta alongside a
non-empty `<title>` tag, the extracted title is the `og:title` value, never
the tag value; likewise `og:description`, `og:image` and `og:site_name`
populate abstract, header image and source whenever present and non-empty. -/
theorem extractHTMLMetadata_og (h : HtmlHead) :
    (∀ v, h.titleTag ≠ [] → metaProp h.metas pOgTitle = some v → v ≠ [] →
      (extractHTMLMetadata h).title = v) ∧
    (∀ v, metaProp h.metas pOgDescription = some v → v ≠ [] →
      (extractHTMLMetadata h).abstract = v) ∧
    (∀ v, metaProp h.metas pOgImage = some v → v ≠ [] →
      (extractHTMLMetadata h).headerImage = v) ∧
    (∀ v, metaProp h.metas pOgSiteName = some v → v ≠ [] →
      (extractHTMLMetadata h).source = v) := by
  refine ⟨fun v _ hm hv => ?_, fun v hm hv => ?_, fun v hm hv => ?_, fun v hm hv => ?_⟩ <;>
    simp [extractHTMLMetadata, hm, overrideWith_some hv]

/-- Witness for C4: the Open Graph head of `TestHTML_ExtractMetadata_OGTags`
yields the OG title, description, image and site name. -/
theorem extractHTMLMetadata_og_witness :
    (extractHTMLMetadata exOgHead).title = exOgTitleVal ∧
      (extractHTMLMetadata exOgHead).abstract = exOgDescVal ∧
      (extractHTMLMetadata exOgHead).headerImage = exOgImageVal ∧
      (extractHTMLMetadata exOgHead).source = exOgSiteVal :=
  ⟨(extractHTMLMetadata_og exOgHead).1 exOgTitleVal (by decide) (by decide) (by decide),
   (extractHTMLMetadata_og exOgHead).2.1 exOgDescVal (by decide) (by decide),
   (extractHTMLMetadata_og exOgHead).2.2.1 exOgImageVal (by decide) (by decide),
   (extractHTMLMetadata_og exOgHead).2.2.2 exOgSiteVal (by decide) (by decide)⟩

/-! ### Claim C5 -/

/-- C5: loading an EPUB whose bytes are not a valid zip, or whose
container or OPF package document is missing or malformed, returns a
descriptive error; the `Except` result carries no partial document on any
of these paths, and the loader propagates the failure unchanged. -/
theorem epubLoad_hard_failure :
    (∀ path, epubLoad path none = .error errNotZip) ∧
      (∀ path entries, findEntry entries containerName = none →
        epubLoad path (some entries) = .error errNoContainer) ∧
      (∀ path entries container,
        findEntry entries containerName = some container →
        containerOpfPath container = none →
        epubLoad path (some entries) = .error errNoContainer) ∧
      (∀ path entries container opfPath,
        findEntry entries containerName = some container →
        containerOpfPath container = some opfPath →
        findEntry entries opfPath = none →
        epubLoad path (some entries) = .error errNoOpf) ∧
      (∀ path entries container opfPath opf,
        findEntry entries containerName = some container →
        containerOpfPath container = some opfPath →
        findEntry entries opfPath = some opf →
        opfWellFormed opf = false →
        epubLoad path (some entries) = .error errNoOpf) ∧
      (∀ path fd, extLowerCs path = eEpub → fd.zip = none →
        loadDocument path fd = .error errNotZip) := by
  refine ⟨fun path => rfl, ?_, ?_, ?_, ?_, ?_⟩
  · intro path entries hc
    simp [epubLoad, hc]
  · intro path entries container hc ho
    simp [epubLoad, hc, ho]
  · intro path entries container opfPath hc ho hf
    simp [epubLoad, hc, ho, hf]
  · intro path entries container opfPath opf hc ho hf hw
    simp [epubLoad, hc, ho, hf, hw]
  · intro path fd he hz
    have hsel : selectParser eEpub = some DocFormat.epub := by decide
    simp [loadDocument, he, hsel, runParser, hz, Except.map, epubLoad]

/-- Witness for C5: the invalid EPUB file of `TestEPUB_Load_InvalidFile`
(bytes that are no zip archive) fails, as does an archive with no
container entry and an archive whose OPF entry is present but is not a
parsable package document. -/
theorem epubLoad_hard_failure_witness :
    epubLoad exInvalidEpubPath none = .error errNotZip ∧
      epubLoad exInvalidEpubPath (some []) = .error errNoContainer ∧
      epubLoad exInvalidEpubPath (some exBadOpfEntries) = .error errNoOpf ∧
      loadDocument exInvalidEpubPath { } = .error errNotZip :=
  ⟨epubLoad_hard_failure.1 exInvalidEpubPath,
   epubLoad_hard_failure.2.1 exInvalidEpubPath [] (by decide),
   epubLoad_hard_failure.2.2.2.2.1 exInvalidEpubPath exBadOpfEntries
     exContainerXml exOpfPath exGarbageOpf (by decide) (by decide) (by decide)
     (by decide),
   epubLoad_hard_failure.2.2.2.2.2 exInvalidEpubPath { } (by decide) rfl⟩

/-! ### Claim C1 -/

/-- The assembler never leaves the title empty when the filename stem is
usable: the last fallback substitutes the filename without extension. -/
theorem ifEmptyFallback_ne (t stem : List Char) (h : stem ≠ []) :
    (if t.isEmpty then stem else t) ≠ [] := by
  by_cases ht : t.isEmpty = true
  · simpa [ht]
  · have : t ≠ [] := by simpa [List.isEmpty_iff] using ht
    simpa [ht]

theorem assembleDocument_title_ne (path c : List Char) (p : Properties)
    (hstem : stemOf path ≠ []) :
    (assembleDocument path c p).properties.title ≠ [] := by
  have h := ifEmptyFallback_ne
    (if p.title.isEmpty then (extractFileNameMetadata path).title else p.title)
    (stemOf path) hstem
  simpa [assembleDocument] using h

/-- C1: every successful load of a supported, non-degenerate file name
yields a non-empty title — when neither format-native metadata nor the
content heuristic supplies one, the assembler substitutes the filename
without extension; concretely, loading `my_custom_file.txt` whose content
has no title-like line yields the title `my_custom_file`. -/
theorem loadDocument_title_nonempty :
    (∀ (path : List Char) (fd : FileData) (doc : Document),
      loadDocument path fd = .ok doc → stemOf path ≠ [] →
        doc.properties.title ≠ []) ∧
      (loadDocument exDefaultTitlePath exDefaultFd).map
          (fun d => d.properties.title) = .ok exDefaultTitleStem := by
  constructor
  · intro path fd doc h hstem
    simp only [loadDocument] at h
    split at h
    · exact absurd h (by simp)
    · rename_i fmt hsel
      rcases hr : runParser fmt path fd with e | v
      · rw [hr] at h
        simp [Except.map] at h
      · rw [hr] at h
        simp only [Except.map] at h
        injection h with h
        rw [← h]
        exact assembleDocument_title_ne _ _ _ hstem
  · rfl

/-- Witness for C1: the universal clause applied to the concrete default-.
title test file. -/
theorem loadDocument_title_nonempty_witness : exDefaultDoc.properties.title ≠ [] :=
  loadDocument_title_nonempty.1 exDefaultTitlePath exDefaultFd exDefaultDoc
    (by rfl) (by decide)

/-! ### Path and splitting lemmas for the filename heuristic -/

theorem baseNameCs_id {path : List Char} (h : '/' ∉ path) : baseNameCs path = path := by
  unfold baseNameCs
  rw [List.takeWhile_eq_self_iff.mpr, List.reverse_reverse]
  intro x hx
  exact decide_eq_true (fun he => h (he ▸ List.mem_reverse.mp hx))

theorem dropWhileAllAppend {p : Char → Bool} {xs : List Char} (ys : List Char)
    (h : ∀ x ∈ xs, p x = true) :
    (xs ++ ys).dropWhile p = ys.dropWhile p := by
  rw [List.dropWhile_append]
  have hnil : xs.dropWhile p = [] := List.dropWhile_eq_nil_iff.mpr h
  simp [hnil]

theorem stripExtCs_append (s e : List Char) (he : '.' ∉ e) :
    stripExtCs (s ++ '.' :: e) = s := by
  unfold stripExtCs
  have h1 : (s ++ '.' :: e).reverse = e.reverse ++ '.' :: s.reverse := by
    simp
  have h2 : (e.reverse ++ '.' :: s.reverse).dropWhile (fun c => decide (c ≠ '.')) =
      ('.' :: s.reverse).dropWhile (fun c => decide (c ≠ '.')) := by
    refine dropWhileAllAppend _ (fun x hx => decide_eq_true ?_)
    intro hEq
    exact he (hEq ▸ List.mem_reverse.mp hx)
  rw [h1, h2]
  simp [List.dropWhile]

theorem stemOf_plain (stem e : List Char) (hs : '/' ∉ stem) (hde : '.' ∉ e)
    (hse : '/' ∉ e) :
    stemOf (stem ++ '.' :: e) = stem := by
  have hall : '/' ∉ stem ++ '.' :: e := by
    intro hmem
    rcases List.mem_append.mp hmem with h | h
    · exact hs h
    · rcases List.mem_cons.mp h with h | h
      · exact absurd h (by decide)
      · exact hse h
  unfold stemOf
  rw [baseNameCs_id hall, stripExtCs_append _ _ hde]

theorem year4_length {y : List Char} (hy : isYear4 y = true) : y.length = 4 := by
  simp only [isYear4, Bool.and_eq_true, decide_eq_true_eq] at hy
  exact hy.1

theorem year4_digits {y : List Char} (hy : isYear4 y = true) :
    ∀ c ∈ y, c.isDigit = true := by
  simp only [isYear4, Bool.and_eq_true, decide_eq_true_eq, List.all_eq_true] at hy
  exact hy.2

theorem year4_not_mem {y : List Char} (hy : isYear4 y = true) {c : Char}
    (hc : c.isDigit = false) : c ∉ y := by
  intro hmem
  have := year4_digits hy c hmem
  rw [hc] at this
  exact absurd this (by decide)

theorem year4_ne_nil {y : List Char} (hy : isYear4 y = true) : y ≠ [] := by
  intro h
  have := year4_length hy
  rw [h] at this
  simp at this

theorem parenYearSplit_some (front y : List Char) (hy : isYear4 y = true) :
    parenYearSplit (front ++ (' ' :: '(' :: (y ++ [')']))) = some (front, y) := by
  have hlen : y.reverse.length = 4 := by simpa using year4_length hy
  have hrev : (front ++ (' ' :: '(' :: (y ++ [')']))).reverse =
      ')' :: (y.reverse ++ '(' :: ' ' :: front.reverse) := by
    simp
  unfold parenYearSplit
  rw [hrev]
  have htake : (y.reverse ++ '(' :: ' ' :: front.reverse).take 4 = y.reverse := by
    rw [← hlen, List.take_left]
  have hdrop : (y.reverse ++ '(' :: ' ' :: front.reverse).drop 4 =
      '(' :: ' ' :: front.reverse := by
    rw [← hlen, List.drop_left]
  simp [htake, hdrop, hy]

theorem parenYearSplit_none_digit (s : List Char) (c : Char) (hc : c ≠ ')') :
    parenYearSplit (s ++ [c]) = none := by
  unfold parenYearSplit
  have hrev : (s ++ [c]).reverse = c :: s.reverse := by simp
  rw [hrev]
  split
  · rename_i r heq
    rw [List.cons_eq_cons] at heq
    exact absurd heq.1 hc
  · rfl

theorem splitFirstSub_single (c : Char) (a b : List Char) (ha : c ∉ a) :
    splitFirstSub [c] (a ++ c :: b) = some (a, b) := by
  induction a with
  | nil =>
    unfold splitFirstSub
    simp [List.isPrefixOf]
  | cons x xs ih =>
    have hx : x ≠ c := fun e => ha (e ▸ List.mem_cons_self x xs)
    have hxs : c ∉ xs := fun m => ha (List.mem_cons_of_mem x m)
    rw [List.cons_append]
    unfold splitFirstSub
    have hpre : ([c].isPrefixOf (x :: (xs ++ c :: b))) = false := by
      simp [List.isPrefixOf, beq_eq_false_iff_ne.mpr (Ne.symm hx)]
    simp only [hpre, Bool.false_eq_true, if_false, ih hxs]

theorem splitFirstSub_dash (a b : List Char) (ha : '-' ∉ a) :
    splitFirstSub dashSep (a ++ (dashSep ++ b)) = some (a, b) := by
  induction a with
  | nil =>
    rw [List.nil_append]
    unfold splitFirstSub
    simp [dashSep, List.isPrefixOf]
  | cons x xs ih =>
    have hxs : '-' ∉ xs := fun m => ha (List.mem_cons_of_mem x m)
    rw [List.cons_append]
    unfold splitFirstSub
    have hpre : (dashSep.isPrefixOf (x :: (xs ++ (dashSep ++ b)))) = false := by
      cases xs with
      | nil => simp [dashSep, List.isPrefixOf]
      | cons x2 xs2 =>
        have hx2 : x2 ≠ '-' := fun e => hxs (e ▸ List.mem_cons_self x2 xs2)
        simp [dashSep, List.isPrefixOf, beq_eq_false_iff_ne.mpr (Ne.symm hx2)]
    simp only [hpre, Bool.false_eq_true, if_false, ih hxs]

theorem splitFirstSub_of_not_occurs {sep l : List Char} (h : occursSub sep l = false) :
    splitFirstSub sep l = none := by
  unfold occursSub at h
  exact Option.not_isSome_iff_eq_none.mp (by simp [h])

theorem intercalate_cons (c : Char) (x : List Char) (ys : List (List Char))
    (h : ys ≠ []) :
    List.intercalate [c] (x :: ys) = x ++ c :: List.intercalate [c] ys := by
  cases ys with
  | nil => exact absurd rfl h
  | cons z zs => simp [List.intercalate, List.intersperse]

theorem intercalate_three (c : Char) (a t y : List Char) :
    List.intercalate [c] [a, t, y] = a ++ c :: (t ++ c :: y) := by
  simp [List.intercalate]

theorem intercalate_ends (c : Char) (ls : List (List Char)) (y : List Char) :
    ∃ s, List.intercalate [c] (ls ++ [y]) = s ++ y := by
  induction ls with
  | nil => exact ⟨[], by simp [List.intercalate]⟩
  | cons l ls ih =>
    rcases ih with ⟨s, hs⟩
    refine ⟨l ++ c :: s, ?_⟩
    rw [List.cons_append, intercalate_cons c l (ls ++ [y]) (by simp), hs]
    simp

theorem not_mem_intercalate (c x : Char) (ls : List (List Char)) (hx : x ≠ c)
    (h : ∀ s ∈ ls, x ∉ s) : x ∉ List.intercalate [c] ls := by
  induction ls with
  | nil => simp [List.intercalate]
  | cons l ls ih =>
    cases ls with
    | nil => simpa [List.intercalate] using h l (by simp)
    | cons l2 ls2 =>
      rw [intercalate_cons c l (l2 :: ls2) (by simp)]
      intro hmem
      rcases List.mem_append.mp hmem with hm | hm
      · exact h l (by simp) hm
      · rcases List.mem_cons.mp hm with hm | hm
        · exact hx hm
        · exact ih (fun s hs => h s (List.mem_cons_of_mem _ hs)) hm

/-! ### Pattern lemmas of the filename heuristic -/

theorem fnmUnderscoreGeneral (toks : List (List Char)) (a t y e : List Char)
    (hfree : ∀ s ∈ toks ++ [a, t, y], '_' ∉ s ∧ '/' ∉ s)
    (hy : isYear4 y = true) (hde : '.' ∉ e) (hse : '/' ∉ e) :
    extractFileNameMetadata (List.intercalate ['_'] (toks ++ [a, t, y]) ++ '.' :: e) =
      { emptyProps with author := a, title := t, year := y } := by
  have hslash : '/' ∉ List.intercalate ['_'] (toks ++ [a, t, y]) :=
    not_mem_intercalate _ _ _ (by decide) (fun s hs => (hfree s hs).2)
  have hstem : stemOf (List.intercalate ['_'] (toks ++ [a, t, y]) ++ '.' :: e) =
      List.intercalate ['_'] (toks ++ [a, t, y]) :=
    stemOf_plain _ _ hslash hde hse
  have hyne : y ≠ [] := year4_ne_nil hy
  have hlast : y.getLast hyne ≠ ')' := by
    intro hEq
    have hd := year4_digits hy _ (List.getLast_mem hyne)
    rw [hEq] at hd
    exact absurd hd (by decide)
  have hparen : parenYearSplit (List.intercalate ['_'] (toks ++ [a, t, y])) = none := by
    have hshape : toks ++ [a, t, y] = (toks ++ [a, t]) ++ [y] := by simp
    obtain ⟨s0, hs0⟩ := intercalate_ends '_' (toks ++ [a, t]) y
    rw [hshape, hs0]
    have hy2 : s0 ++ y = (s0 ++ y.dropLast) ++ [y.getLast hyne] := by
      conv_lhs => rw [← List.dropLast_append_getLast hyne]
      rw [List.append_assoc]
    rw [hy2]
    exact parenYearSplit_none_digit _ _ hlast
  have hsplit : splitOnCharCs '_' (List.intercalate ['_'] (toks ++ [a, t, y])) =
      toks ++ [a, t, y] :=
    splitOnCharCs_intercalate _ _ (by simp) (fun s hs => (hfree s hs).1)
  unfold extractFileNameMetadata
  dsimp only
  rw [hstem, hparen, hsplit]
  have hrev : (toks ++ [a, t, y]).reverse = y :: t :: a :: toks.reverse := by simp
  rw [hrev]
  simp [hy]

theorem fnmDashParen (a t y e : List Char) (ha : '-' ∉ a) (hy : isYear4 y = true)
    (hde : '.' ∉ e) (hsa : '/' ∉ a) (hst : '/' ∉ t) (hse : '/' ∉ e) :
    extractFileNameMetadata
        (((a ++ (dashSep ++ t)) ++ (' ' :: '(' :: (y ++ [')']))) ++ '.' :: e) =
      { emptyProps with author := a, title := t, year := y } := by
  have hslash : '/' ∉ (a ++ (dashSep ++ t)) ++ (' ' :: '(' :: (y ++ [')'])) := by
    intro hmem
    rcases List.mem_append.mp hmem with h | h
    · rcases List.mem_append.mp h with h | h
      · exact hsa h
      · rcases List.mem_append.mp h with h | h
        · simp [dashSep] at h
        · exact hst h
    · rcases List.mem_cons.mp h with h | h
      · exact absurd h (by decide)
      · rcases List.mem_cons.mp h with h | h
        · exact absurd h (by decide)
        · rcases List.mem_append.mp h with h | h
          · exact year4_not_mem hy (by decide) h
          · simp at h
  have hstem : stemOf ((((a ++ (dashSep ++ t)) ++ (' ' :: '(' :: (y ++ [')'])))) ++ '.' :: e)
      = (a ++ (dashSep ++ t)) ++ (' ' :: '(' :: (y ++ [')'])) :=
    stemOf_plain _ _ hslash hde hse
  have hparen := parenYearSplit_some (a ++ (dashSep ++ t)) y hy
  have hdash := splitFirstSub_dash a t ha
  unfold extractFileNameMetadata
  dsimp only
  rw [hstem, hparen]
  dsimp only
  rw [hdash]

theorem fnmUnderscoreParen (a t y e : List Char) (ha : '_' ∉ a)
    (hnd : occursSub dashSep (a ++ '_' :: t) = false) (hy : isYear4 y = true)
    (hde : '.' ∉ e) (hsa : '/' ∉ a) (hst : '/' ∉ t) (hse : '/' ∉ e) :
    extractFileNameMetadata
        (((a ++ '_' :: t) ++ (' ' :: '(' :: (y ++ [')']))) ++ '.' :: e) =
      { emptyProps with author := a, title := t, year := y } := by
  have hslash : '/' ∉ (a ++ '_' :: t) ++ (' ' :: '(' :: (y ++ [')'])) := by
    intro hmem
    rcases List.mem_append.mp hmem with h | h
    · rcases List.mem_append.mp h with h | h
      · exact hsa h
      · rcases List.mem_cons.mp h with h | h
        · exact absurd h (by decide)
        · exact hst h
    · rcases List.mem_cons.mp h with h | h
      · exact absurd h (by decide)
      · rcases List.mem_cons.mp h with h | h
        · exact absurd h (by decide)
        · rcases List.mem_append.mp h with h | h
          · exact year4_not_mem hy (by decide) h
          · simp at h
  have hstem : stemOf (((a ++ '_' :: t) ++ (' ' :: '(' :: (y ++ [')']))) ++ '.' :: e)
      = (a ++ '_' :: t) ++ (' ' :: '(' :: (y ++ [')'])) :=
    stemOf_plain _ _ hslash hde hse
  have hparen := parenYearSplit_some (a ++ '_' :: t) y hy
  have hnone := splitFirstSub_of_not_occurs hnd
  have hu := splitFirstSub_single '_' a t ha
  unfold extractFileNameMetadata
  dsimp only
  rw [hstem, hparen]
  dsimp only
  rw [hnone]
  dsimp only
  rw [hu]

theorem fnmNoMatch (path : List Char)
    (hparen : parenYearSplit (stemOf path) = none)
    (hyear : isYear4 ((splitOnCharCs '_' (stemOf path)).reverse.headD []) = false) :
    extractFileNameMetadata path = emptyProps := by
  unfold extractFileNameMetadata
  dsimp only
  rw [hparen]
  rcases hrev : (splitOnCharCs '_' (stemOf path)).reverse with _ | ⟨y, tl⟩
  · rfl
  · rcases tl with _ | ⟨t, tl2⟩
    · rfl
    · rcases tl2 with _ | ⟨a2, rest⟩
      · rfl
      · have hy : isYear4 y = false := by
          rw [hrev] at hyear
          simpa using hyear
        simp [hy]

/-! ### Claim C8 -/

/-- The content heuristic's title on an empty starting record is exactly
the line-based title selection. -/
theorem extractTextContentMetadata_title (content : List Char) :
    (extractTextContentMetadata content emptyProps).title =
      findTitle (splitOnCharCs '\n' content) := by
  unfold extractTextContentMetadata
  split
  · dsimp only
    split <;> rfl
  · rename_i hfalse
    exact absurd rfl hfalse

/-- C8: the content heuristic selects the title as the first Markdown H1
line stripped of its marker; otherwise the first line that is non-empty
after trimming and either long or containing whitespace (short
whitespace-free tokens are skipped); otherwise it leaves the title empty.
Concretely, a `.txt` file whose first line is `# Title` loads with title
`Title`. -/
theorem contentHeuristic_title_selection :
    (∀ lines : List (List Char), lines ≠ [] → (∀ l ∈ lines, '\n' ∉ l) →
      (∀ l, lines.find? isH1 = some l →
        (extractTextContentMetadata (List.intercalate ['\n'] lines) emptyProps).title =
          trimCs (l.drop 2)) ∧
      (lines.find? isH1 = none → ∀ l, lines.find? titleCandidate = some l →
        (extractTextContentMetadata (List.intercalate ['\n'] lines) emptyProps).title =
          trimCs l) ∧
      (lines.find? isH1 = none → lines.find? titleCandidate = none →
        (extractTextContentMetadata (List.intercalate ['\n'] lines) emptyProps).title =
          [])) ∧
      (loadDocument exH1TxtPath exH1Fd).map (fun d => d.properties.title) =
        .ok exH1Title := by
  constructor
  · intro lines hne hfree
    have hsplit : splitOnCharCs '\n' (List.intercalate ['\n'] lines) = lines :=
      splitOnCharCs_intercalate _ _ hne hfree
    have htitle :
        (extractTextContentMetadata (List.intercalate ['\n'] lines) emptyProps).title =
          findTitle lines := by
      rw [extractTextContentMetadata_title, hsplit]
    refine ⟨fun l hf => ?_, fun h1 l hf => ?_, fun h1 h2 => ?_⟩
    · rw [htitle]; simp [findTitle, hf]
    · rw [htitle]; simp [findTitle, h1, hf]
    · rw [htitle]; simp [findTitle, h1, h2]
  · rfl

/-- Witness for C8: the selection clauses applied to the concrete line
lists of `TestText_ExtractContentMetadata_Title`. -/
theorem contentHeuristic_title_selection_witness :
    (extractTextContentMetadata (List.intercalate ['\n'] exH1Lines) emptyProps).title =
        trimCs (exH1Line.drop 2) ∧
      (extractTextContentMetadata (List.intercalate ['\n'] exShortLines) emptyProps).title =
        trimCs exParaLine :=
  ⟨(contentHeuristic_title_selection.1 exH1Lines (by decide) (by decide)).1
      exH1Line (by decide),
   (contentHeuristic_title_selection.1 exShortLines (by decide) (by decide)).2.1
      (by decide) exParaLine (by decide)⟩

/-! ### Claim C3 -/

/-- C3: the filename heuristic recovers, in priority order,
`Author_Title_Year`, `Author - Title (Year)`, `Author_Title (Year)` and the
generic trailing-four-digit-year underscore pattern (the two tokens before
the year become author and title); when no pattern matches, every field
stays empty and no error arises (the function is total). -/
theorem filenameHeuristic_patterns :
    (∀ a t y e : List Char, ('_' ∉ a ∧ '/' ∉ a) → ('_' ∉ t ∧ '/' ∉ t) →
      isYear4 y = true → '.' ∉ e → '/' ∉ e →
      extractFileNameMetadata (List.intercalate ['_'] [a, t, y] ++ '.' :: e) =
        { emptyProps with author := a, title := t, year := y }) ∧
      (∀ a t y e : List Char, '-' ∉ a → isYear4 y = true → '.' ∉ e →
        '/' ∉ a → '/' ∉ t → '/' ∉ e →
        extractFileNameMetadata
            (((a ++ (dashSep ++ t)) ++ (' ' :: '(' :: (y ++ [')']))) ++ '.' :: e) =
          { emptyProps with author := a, title := t, year := y }) ∧
      (∀ a t y e : List Char, '_' ∉ a → occursSub dashSep (a ++ '_' :: t) = false →
        isYear4 y = true → '.' ∉ e → '/' ∉ a → '/' ∉ t → '/' ∉ e →
        extractFileNameMetadata
            (((a ++ '_' :: t) ++ (' ' :: '(' :: (y ++ [')']))) ++ '.' :: e) =
          { emptyProps with author := a, title := t, year := y }) ∧
      (∀ (toks : List (List Char)) (a t y e : List Char),
        (∀ s ∈ toks ++ [a, t, y], '_' ∉ s ∧ '/' ∉ s) → isYear4 y = true →
        '.' ∉ e → '/' ∉ e →
        extractFileNameMetadata
            (List.intercalate ['_'] (toks ++ [a, t, y]) ++ '.' :: e) =
          { emptyProps with author := a, title := t, year := y }) ∧
      (∀ path : List Char, parenYearSplit (stemOf path) = none →
        isYear4 ((splitOnCharCs '_' (stemOf path)).reverse.headD []) = false →
        extractFileNameMetadata path = emptyProps) := by
  refine ⟨?_, fnmDashParen, fnmUnderscoreParen, fnmUnderscoreGeneral, fnmNoMatch⟩
  intro a t y e ha ht hy hde hse
  have hfree : ∀ s ∈ ([] : List (List Char)) ++ [a, t, y], '_' ∉ s ∧ '/' ∉ s := by
    intro s hs
    simp only [List.nil_append, List.mem_cons, List.not_mem_nil, or_false] at hs
    rcases hs with rfl | rfl | rfl
    · exact ha
    · exact ht
    · exact ⟨year4_not_mem hy (by decide), year4_not_mem hy (by decide)⟩
  simpa using fnmUnderscoreGeneral [] a t y e hfree hy hde hse

/-- Witness for C3: the pattern clauses applied to the concrete filenames
of `TestText_ExtractFileNameMetadata`. -/
theorem filenameHeuristic_patterns_witness :
    extractFileNameMetadata
        (List.intercalate ['_'] [exFnAuthor1, exFnTitle1, exFnYear1] ++ '.' :: exExtTxt) =
      { emptyProps with author := exFnAuthor1, title := exFnTitle1, year := exFnYear1 } ∧
      extractFileNameMetadata
          (((exFnAuthor2 ++ (dashSep ++ exFnTitle2)) ++
            (' ' :: '(' :: (exFnYear2 ++ [')']))) ++ '.' :: exExtMd) =
        { emptyProps with author := exFnAuthor2, title := exFnTitle2, year := exFnYear2 } ∧
      extractFileNameMetadata
          (((exFnAuthor3 ++ '_' :: exFnTitle3) ++
            (' ' :: '(' :: (exFnYear2 ++ [')']))) ++ '.' :: exExtTxt) =
        { emptyProps with author := exFnAuthor3, title := exFnTitle3, year := exFnYear2 } ∧
      extractFileNameMetadata exNoMatchPath = emptyProps :=
  ⟨filenameHeuristic_patterns.1 _ _ _ _ (by decide) (by decide) (by decide)
      (by decide) (by decide),
   filenameHeuristic_patterns.2.1 _ _ _ _ (by decide) (by decide) (by decide)
      (by decide) (by decide) (by decide),
   filenameHeuristic_patterns.2.2.1 _ _ _ _ (by decide) (by decide) (by decide)
      (by decide) (by decide) (by decide) (by decide),
   filenameHeuristic_patterns.2.2.2.2 _ (by decide) (by decide)⟩

end DocLoader

